import Mathlib

/-!
Verification of the arrow2 columnar-array kernels: the sort kernel
(`compute/sort/mod.rs`), the primitive growable builder
(`array/growable/primitive.rs`) and the mutable validity bitmap
(`bitmap/mutable.rs`), embedded shallowly.  Machine integers are modelled as
`Nat`/`Int`, buffers as lists, fallible operations as `Except`/`Option`.
Functions of the repository that are present in the sources are transcribed
directly; collaborators that the sources only call (the `bitmap/utils` bit
helpers, the per-type index sorters, the `take` kernel, `ord::build_compare`)
are modelled from the specification and marked `Modelled from the spec:` in
their doc comments.
-/

namespace Arrow2

/-- Time resolution tags of the temporal data types. -/
inductive TimeUnit where
  | second
  | millisecond
  | microsecond
  | nanosecond

/-- Units of the Interval data type (`IntervalUnit` has exactly the two
variants the dispatch matches on). -/
inductive IntervalUnit where
  | yearMonth
  | dayTime

/-- Modelled from the spec: the closed set of logical type tags (`DataType`).
A `Field` is modelled by its data type, the only component the sort dispatch
ever inspects (`field.data_type()`). -/
inductive DataType where
  | null
  | boolean
  | int8
  | int16
  | int32
  | int64
  | uint8
  | uint16
  | uint32
  | uint64
  | float16
  | float32
  | float64
  | timestamp (unit : TimeUnit) (tz : Option String)
  | date32
  | date64
  | time32 (unit : TimeUnit)
  | time64 (unit : TimeUnit)
  | duration (unit : TimeUnit)
  | interval (unit : IntervalUnit)
  | binary
  | largeBinary
  | fixedSizeBinary (size : Int)
  | utf8
  | largeUtf8
  | list (field : DataType)
  | largeList (field : DataType)
  | fixedSizeList (field : DataType) (size : Int)
  | dictionary (key : DataType) (value : DataType)

/-- Short printable tag of a data type, standing in for the `{:?}` rendering
used in the error messages of `sort_to_indices`. -/
def DataType.tag : DataType → String
  | .null => "Null"
  | .boolean => "Boolean"
  | .int8 => "Int8"
  | .int16 => "Int16"
  | .int32 => "Int32"
  | .int64 => "Int64"
  | .uint8 => "UInt8"
  | .uint16 => "UInt16"
  | .uint32 => "UInt32"
  | .uint64 => "UInt64"
  | .float16 => "Float16"
  | .float32 => "Float32"
  | .float64 => "Float64"
  | .timestamp _ _ => "Timestamp"
  | .date32 => "Date32"
  | .date64 => "Date64"
  | .time32 _ => "Time32"
  | .time64 _ => "Time64"
  | .duration _ => "Duration"
  | .interval _ => "Interval"
  | .binary => "Binary"
  | .largeBinary => "LargeBinary"
  | .fixedSizeBinary _ => "FixedSizeBinary"
  | .utf8 => "Utf8"
  | .largeUtf8 => "LargeUtf8"
  | .list _ => "List"
  | .largeList _ => "LargeList"
  | .fixedSizeList _ _ => "FixedSizeList"
  | .dictionary _ _ => "Dictionary"

/-- The recoverable error class of the kernels (`ArrowError`); the sort
dispatch only ever produces `NotYetImplemented`. -/
inductive ArrowError where
  | notYetImplemented (msg : String)

/-- Options that define how sort kernels should behave
(`SortOptions { descending, nulls_first }`). -/
structure SortOptions where
  descending : Bool
  nulls_first : Bool

/-- Transcribed from `can_sort` (compute/sort/mod.rs lines 283-333): checks
if an array of type `data_type` can be sorted. -/
def can_sort : DataType → Bool
  | .boolean
  | .int8
  | .int16
  | .int32
  | .date32
  | .time32 _
  | .interval _
  | .int64
  | .date64
  | .time64 _
  | .timestamp _ none
  | .duration _
  | .uint8
  | .uint16
  | .uint32
  | .uint64
  | .float32
  | .float64
  | .utf8
  | .largeUtf8 => true
  | .list field
  | .largeList field
  | .fixedSizeList field _ =>
    (match field with
     | .int8 | .int16 | .int32 | .int64
     | .uint8 | .uint16 | .uint32 | .uint64 => true
     | _ => false)
  | .dictionary key .utf8 =>
    (match key with
     | .int8 | .int16 | .int32 | .int64
     | .uint8 | .uint16 | .uint32 | .uint64 => true
     | _ => false)
  | _ => false

/-- One bit of an optional validity bitmap: absence of a bitmap means every
position is valid (`validity.get_bit(i)` on the present bitmap). -/
def validBit (validity : Option (List Bool)) (i : Nat) : Bool :=
  match validity with
  | none => true
  | some v => v.getD i false

/-- Transcribed from `partition_validity` (compute/sort/mod.rs lines 77-85):
partitions the indices `0..length` into valid and null indices, preserving
order, using the array's validity bitmap; absence of a bitmap means every
index is valid. -/
def partition_validity (validity : Option (List Bool)) (length : Nat) :
    List Nat × List Nat :=
  match validity with
  | some v => (List.range length).partition (fun i => v.getD i false)
  | none => (List.range length, [])

/-- Comparator-driven ordering of the valid indices followed by the
null/valid merge and the limit truncation.  This is the shape shared by every
supported arm of `sort_to_indices`: the list arm is `sort_list`
(compute/sort/mod.rs lines 387-407), and the boolean/primitive/utf8/dictionary
sorters are Modelled from the spec: they partition positions, sort only the
valid set with the type's total-order comparator (reversed when `descending`),
reinsert the null set per `nulls_first` and apply `limit` after the merge. -/
def indicesSortedBy (cmp : Nat → Nat → Ordering) (options : SortOptions)
    (valid nullIdx : List Nat) (limit : Option Nat) : List Nat :=
  let sorted :=
    if options.descending = false then
      valid.mergeSort (fun a b => (cmp a b).isLE)
    else
      valid.mergeSort (fun a b => (cmp a b).swap.isLE)
  let merged := if options.nulls_first then nullIdx ++ sorted else sorted ++ nullIdx
  merged.take (limit.getD merged.length)

/-- Modelled from the spec: `ord::build_compare` for two primitive child
arrays, as consumed by `cmp_array` (compute/sort/mod.rs lines 411-422): the
elements are compared position by position up to the longer element's length
and the first non-equal result is returned.  The behaviour at out-of-range
positions on the shorter side is implementation-defined (spec section 9); it
is modelled as reading the default value `0`. -/
def cmp_array (a b : List Int) : Ordering :=
  (((List.range (max a.length b.length)).map
      (fun i => compare (a.getD i 0) (b.getD i 0))).find?
    (fun o => o != Ordering.eq)).getD Ordering.eq

/-- Transcribed from `sort_list` (compute/sort/mod.rs lines 354-408): each
valid index is paired with its child sub-array, the pairs are sorted by
`cmp_array` (reversed when `descending`), the null indices are prepended or
appended per `nulls_first`, and the result is truncated to `limit` (no-op
when the limit is at least the length).  `values` holds each outer element's
child sub-array, as `ListArray::value`/`FixedSizeListArray::value` return it. -/
def sort_list (values : List (List Int)) (value_indices null_indices : List Nat)
    (options : SortOptions) (limit : Option Nat) : List Nat :=
  let valids : List (Nat × List Int) :=
    value_indices.map (fun i => (i, values.getD i []))
  let sorted :=
    if options.descending = false then
      valids.mergeSort (fun x y => (cmp_array x.2 y.2).isLE)
    else
      valids.mergeSort (fun x y => (cmp_array x.2 y.2).swap.isLE)
  let idxs := sorted.map (fun t => t.1)
  let merged := if options.nulls_first then null_indices ++ idxs else idxs ++ null_indices
  merged.take (limit.getD merged.length)

/-- The generic index sort of an array described by its length and validity
bitmap and a total-order comparator `cmp` on positions: partition the
positions, then order and merge.  Every supported dispatch arm of
`sort_to_indices` is an instance of this scheme (the missing per-type sorter
modules are Modelled from the spec, see `indicesSortedBy`). -/
def sort_to_indices_generic (cmp : Nat → Nat → Ordering)
    (validity : Option (List Bool)) (length : Nat) (options : SortOptions)
    (limit : Option Nat) : List Nat :=
  let p := partition_validity validity length
  indicesSortedBy cmp options p.1 p.2 limit

/-- The List/LargeList/FixedSizeList arm of `sort_to_indices`
(compute/sort/mod.rs lines 150-200): `partition_validity` on the outer array
followed by `sort_list`. -/
def sort_to_indices_list (values : List (List Int))
    (validity : Option (List Bool)) (options : SortOptions)
    (limit : Option Nat) : List Nat :=
  let p := partition_validity validity values.length
  sort_list values p.1 p.2 options limit

/-- `sort_to_indices` applied to an all-null (or zero-length) array of length
`n`: the validity bitmap is all unset, so `partition_validity` yields an
empty valid set and the comparator is never consulted. -/
def nullArrayIndices (n : Nat) (options : SortOptions) (limit : Option Nat) :
    List Nat :=
  let p := partition_validity (some (List.replicate n false)) n
  indicesSortedBy (fun _ _ => Ordering.eq) options p.1 p.2 limit

/-- Transcribed from `sort_dict` (compute/sort/mod.rs lines 216-268),
specialised to an all-null array of length `n`: the key type is dispatched to
the dictionary index sorter (Modelled from the spec for the supported integer
key widths, where on an all-null input it reduces to `nullArrayIndices`), and
every other key type is a `NotYetImplemented` error. -/
def sort_dict_null (key : DataType) (n : Nat) (options : SortOptions)
    (limit : Option Nat) : Except ArrowError (List Nat) :=
  match key with
  | .int8 | .int16 | .int32 | .int64
  | .uint8 | .uint16 | .uint32 | .uint64 =>
    .ok (nullArrayIndices n options limit)
  | t =>
    .error (.notYetImplemented
      ("Sort not supported for dictionary key type " ++ t.tag))

/-- Transcribed from the dispatch of `sort_to_indices` (compute/sort/mod.rs
lines 100-214), applied to an all-null (or zero-length) array of length `n`:
every supported arm succeeds (on an all-null input each per-type sorter
reduces to `nullArrayIndices`); every unmatched tag is a `NotYetImplemented`
error.  The per-type sorter modules are not part of the sources and are
Modelled from the spec (section 7: every type accepted by dispatch succeeds). -/
def sort_to_indices_null (dt : DataType) (n : Nat) (options : SortOptions)
    (limit : Option Nat) : Except ArrowError (List Nat) :=
  match dt with
  | .boolean
  | .int8
  | .int16
  | .int32
  | .date32
  | .time32 _
  | .interval _
  | .int64
  | .date64
  | .time64 _
  | .timestamp _ none
  | .duration _
  | .uint8
  | .uint16
  | .uint32
  | .uint64
  | .float32
  | .float64
  | .utf8
  | .largeUtf8 => .ok (nullArrayIndices n options limit)
  | .list field
  | .largeList field
  | .fixedSizeList field _ =>
    (match field with
     | .int8 | .int16 | .int32 | .int64
     | .uint8 | .uint16 | .uint32 | .uint64 =>
       .ok (sort_list (List.replicate n [])
         (partition_validity (some (List.replicate n false)) n).1
         (partition_validity (some (List.replicate n false)) n).2 options limit)
     | t =>
       .error (.notYetImplemented ("Sort not supported for list type " ++ t.tag)))
  | .dictionary key value =>
    (match value with
     | .utf8 => sort_dict_null key n options limit
     | .largeUtf8 => sort_dict_null key n options limit
     | t =>
       .error (.notYetImplemented
         ("Sort not supported for dictionary type with keys " ++ t.tag)))
  | t => .error (.notYetImplemented ("Sort not supported for data type " ++ t.tag))

/-- The logical shape of a `PrimitiveArray<T>` (and of any flat array as the
sort and growable kernels see it): a values buffer and an optional validity
bitmap.  Null slots still hold (arbitrary) buffer values; absence of the
bitmap means every slot is valid. -/
structure PrimitiveArrayM (α : Type) where
  values : List α
  validity : Option (List Bool)

/-- The logical length of the array. -/
def PrimitiveArrayM.len {α : Type} (a : PrimitiveArrayM α) : Nat :=
  a.values.length

/-- Modelled from the spec: `null_count` of an array is the number of unset
bits of its validity bitmap (computed by popcount-style scanning), and `0`
when the bitmap is absent. -/
def PrimitiveArrayM.null_count {α : Type} (a : PrimitiveArrayM α) : Nat :=
  match a.validity with
  | none => 0
  | some v => v.count false

/-- Reading the values buffer at a position (the default value stands for an
out-of-range read, which in-range callers never perform). -/
def valueAt {α : Type} [Inhabited α] (a : PrimitiveArrayM α) (i : Nat) : α :=
  a.values.getD i default

/-- The position comparator a per-type index sorter derives from a value
comparator `c`: compare the buffer values at the two positions. -/
def cmpPositions {α : Type} [Inhabited α] (c : α → α → Ordering)
    (a : PrimitiveArrayM α) : Nat → Nat → Ordering :=
  fun i j => c (valueAt a i) (valueAt a j)

/-- Modelled from the spec: `primitive::indices_sorted_unstable_by` — the
primitive arm of `sort_to_indices`: partition the positions by validity, sort
the valid positions by the value comparator (reversed when `descending`),
reinsert the nulls per `nulls_first`, truncate to `limit`. -/
def sort_to_indices_primitive {α : Type} [Inhabited α] (c : α → α → Ordering)
    (a : PrimitiveArrayM α) (o : SortOptions) (limit : Option Nat) : List Nat :=
  sort_to_indices_generic (cmpPositions c a) a.validity a.len o limit

/-- Modelled from the spec: the external indexing kernel `take` — the new
array holds the referenced elements, each with its value and validity bit;
the logical content is the list of `Option` values. -/
def take_kernel {α : Type} [Inhabited α] (a : PrimitiveArrayM α)
    (indices : List Nat) : List (Option α) :=
  indices.map (fun i => if validBit a.validity i then some (valueAt a i) else none)

/-- Modelled from the spec: `primitive::sort_by`, the direct primitive fast
path of `sort`: the valid values themselves are sorted by the comparator
(reversed when `descending`) and the nulls are reinserted as a block per
`nulls_first`; `limit` truncates after the merge.  Stated by its logical
content, a list of `Option` values. -/
def sort_primitive_direct {α : Type} [Inhabited α] (c : α → α → Ordering)
    (a : PrimitiveArrayM α) (o : SortOptions) (limit : Option Nat) :
    List (Option α) :=
  let p := partition_validity a.validity a.len
  let vals := p.1.map (valueAt a)
  let sorted :=
    if o.descending = false then vals.mergeSort (fun x y => (c x y).isLE)
    else vals.mergeSort (fun x y => (c x y).swap.isLE)
  let merged :=
    if o.nulls_first then List.replicate p.2.length (none : Option α) ++ sorted.map some
    else sorted.map some ++ List.replicate p.2.length (none : Option α)
  merged.take (limit.getD merged.length)

/-- A comparator is a total order when it is swap-dual, transitive on its
non-`gt` relation and equal results only arise from equal values (all three
hold for `ord::total_cmp` and the IEEE-754 totalOrder float comparators). -/
def TotalCmp {α : Type} (c : α → α → Ordering) : Prop :=
  (∀ x y, c x y = (c y x).swap) ∧
  (∀ x y z, (c x y).isLE = true → (c y z).isLE = true → (c x z).isLE = true) ∧
  (∀ x y, c x y = Ordering.eq → x = y)

/-- The non-`gt` relation of a value comparator, lifted to `Option` with
`none` below every value; the lifted relation orders the logical contents of
a sorted primitive array. -/
def leOpt {α : Type} (le : α → α → Bool) : Option α → Option α → Bool
  | none, _ => true
  | some _, none => false
  | some x, some y => le x y

/-- The builder `MutableBitmap` (bitmap/mutable.rs): an exclusively-owned
byte buffer (each byte a `Nat`, bits addressed LSB-first within a byte, the
layout pinned by the crate's `test_push` vectors) plus a logical bit
length. -/
structure MutableBitmapM where
  buffer : List Nat
  length : Nat

/-- Modelled from the spec: bit `i` of the backing bytes as the
`bitmap/utils` accessors address it — bit `i % 8` of byte `i / 8`. -/
def MutableBitmapM.bitAt (mb : MutableBitmapM) (i : Nat) : Bool :=
  Nat.testBit (mb.buffer.getD (i / 8) 0) (i % 8)

/-- The logical contents of the builder: its first `length` stored bits. -/
def MutableBitmapM.bits (mb : MutableBitmapM) : List Bool :=
  (List.range mb.length).map mb.bitAt

/-- Modelled from the spec: `null_count(&buffer, 0, length)` counts the
unset bits among the first `length` bits by popcount-style scanning. -/
def MutableBitmapM.null_count (mb : MutableBitmapM) : Nat :=
  (List.range mb.length).countP (fun i => !(mb.bitAt i))

/-- Modelled from the spec: an immutable `Bitmap` — shared bytes, a bit
offset and a bit length, with O(1) bit lookup at `offset + i`. -/
structure BitmapM where
  bytes : List Nat
  offset : Nat
  length : Nat

/-- Bit lookup of the immutable bitmap. -/
def BitmapM.get (bm : BitmapM) (i : Nat) : Bool :=
  Nat.testBit (bm.bytes.getD ((bm.offset + i) / 8) 0) ((bm.offset + i) % 8)

/-- The logical contents of the immutable bitmap. -/
def BitmapM.bits (bm : BitmapM) : List Bool :=
  (List.range bm.length).map bm.get

/-- Transcribed from `From<MutableBitmap> for Bitmap` (bitmap/mutable.rs
lines 167-172): `Bitmap::from_bytes(buffer, length)` — ownership moves, the
offset is zero. -/
def MutableBitmapM.freeze (mb : MutableBitmapM) : BitmapM :=
  ⟨mb.buffer, 0, mb.length⟩

/-- Transcribed from `From<MutableBitmap> for Option<Bitmap>`
(bitmap/mutable.rs lines 174-183): `Some` of the frozen bitmap when
`null_count() > 0`, `None` otherwise. -/
def MutableBitmapM.intoOptionBitmap (mb : MutableBitmapM) : Option BitmapM :=
  if 0 < mb.null_count then some mb.freeze else none

/-- A candidate bit reader standing for `bitmap/utils::get_bit` exactly as
`MutableBitmap::get` calls it (bitmap/mutable.rs line 139: it receives only
the backing byte buffer and the index, never the logical length) that
returns the stored bit for every in-range index of every well-formed
builder; `none` stands for a panic. -/
def ReadsStoredBits (g : List Nat → Nat → Option Bool) : Prop :=
  ∀ mb : MutableBitmapM, mb.length ≤ 8 * mb.buffer.length →
    ∀ i, i < mb.length → g mb.buffer i = some (mb.bitAt i)

/-- The behaviour C6 claims of `MutableBitmap::get`: a panic (modelled
`none`) at every index at or past the logical length, including indices
still inside the allocated backing bytes. -/
def ErrsAtOrPastLength (g : List Nat → Nat → Option Bool) : Prop :=
  ∀ mb : MutableBitmapM, mb.length ≤ 8 * mb.buffer.length →
    ∀ i, mb.length ≤ i → g mb.buffer i = none

/-- The growable builder for primitive arrays (`GrowablePrimitive`,
array/growable/primitive.rs lines 14-21): source value slices and
validities, the possibly-promoted `use_validity` flag, and the accumulating
validity bitmap and values buffer.  The accumulating `MutableBitmap` is
modelled at the bit level (bitmap/mutable.rs documents `MutableBitmap` as
semantically equivalent to `Vec<bool>`). -/
structure GrowablePrimitiveM (α : Type) where
  arrays : List (List α)
  validities : List (Option (List Bool))
  use_validity : Bool
  validity : List Bool
  values : List α

/-- Transcribed from `GrowablePrimitive::new` (array/growable/primitive.rs
lines 24-53): when `use_validity` is false but some source array has
`null_count() > 0`, the flag is switched on; the sources are kept as value
slices plus validities.  The capacity hint only pre-allocates and is
dropped. -/
def GrowablePrimitiveM.new {α : Type} (arrays : List (PrimitiveArrayM α))
    (use_validity : Bool) : GrowablePrimitiveM α :=
  let u :=
    if !use_validity && arrays.any (fun a => decide (0 < a.null_count)) then true
    else use_validity
  { arrays := arrays.map (fun a => a.values)
    validities := arrays.map (fun a => a.validity)
    use_validity := u
    validity := []
    values := [] }

/-- Modelled from the spec: `extend_validity(&mut bitmap, source_validity,
start, len, use_validity)` (array/growable/utils.rs, not among the sources):
extends the output bitmap by copying the bits `[start, start+len)` of the
source's bitmap when it has one, and by appending `len` set ("valid") bits
when it has none, since absence means all-valid. -/
def extend_validity (bm : List Bool) (validity : Option (List Bool))
    (start len : Nat) (use_validity : Bool) : List Bool :=
  match validity with
  | some v => bm ++ (List.range len).map (fun i => v.getD (start + i) false)
  | none => bm ++ List.replicate len true

/-- Transcribed from `GrowablePrimitive::extend` (array/growable/primitive.rs
lines 65-72): extend the output validity from source `index`'s bitmap and
append the value slice `[start, start + len)` of its values buffer. -/
def GrowablePrimitiveM.extend {α : Type} (g : GrowablePrimitiveM α)
    (index start len : Nat) : GrowablePrimitiveM α :=
  { g with
    validity := extend_validity g.validity (g.validities.getD index none)
      start len g.use_validity
    values := g.values ++ ((g.arrays.getD index []).drop start).take len }

/-- Transcribed from `GrowablePrimitive::to` and the `From` impl
(array/growable/primitive.rs lines 56-61 and 92-97): the accumulated buffers
move into a `PrimitiveArray`, the validity converting through
`Option<Bitmap>` — `None` when it has no unset bit (bitmap/mutable.rs lines
174-183, at the bit level). -/
def GrowablePrimitiveM.toArray {α : Type} (g : GrowablePrimitiveM α) :
    PrimitiveArrayM α :=
  { values := g.values
    validity := if 0 < g.validity.count false then some g.validity else none }

/-- C1: the claim that `can_sort(data_type)` returns true exactly when
`sort_to_indices` on a zero-length or all-null array of that type succeeds
fails on the code: for a Dictionary type with LargeUtf8 values and an integer
key type, `sort_to_indices` dispatches successfully (the dictionary arm
accepts both Utf8 and LargeUtf8 value types) while `can_sort` returns false
(its guard only accepts value type Utf8).  Witnessed here at
`Dictionary(Int8, LargeUtf8)` on an all-null array of length 10 and on a
zero-length array. -/
theorem c1_can_sort_disagrees_with_dispatch :
    can_sort (.dictionary .int8 .largeUtf8) = false ∧
    (sort_to_indices_null (.dictionary .int8 .largeUtf8) 10
        ⟨true, true⟩ none).isOk = true ∧
    (sort_to_indices_null (.dictionary .int8 .largeUtf8) 0
        ⟨true, true⟩ none).isOk = true :=
  ⟨rfl, rfl, rfl⟩

lemma dispatch_agrees_with_can_sort_except_largeUtf8_dictionary :
    ∀ (dt : DataType) (n : Nat) (o : SortOptions) (limit : Option Nat),
      (sort_to_indices_null dt n o limit).isOk =
        (can_sort dt ||
          (match dt with
           | .dictionary key .largeUtf8 =>
             (match key with
              | .int8 | .int16 | .int32 | .int64
              | .uint8 | .uint16 | .uint32 | .uint64 => true
              | _ => false)
           | _ => false)) := by
  intro dt n o limit
  cases dt <;> try rfl
  case timestamp unit tz => cases tz <;> rfl
  case list field => cases field <;> rfl
  case largeList field => cases field <;> rfl
  case fixedSizeList field size => cases field <;> rfl
  case dictionary key value =>
    cases value <;> try rfl
    case utf8 => cases key <;> rfl
    case largeUtf8 => cases key <;> rfl

lemma partition_append_perm (validity : Option (List Bool)) (n : Nat) :
    ((partition_validity validity n).1 ++ (partition_validity validity n).2).Perm
      (List.range n) := by
  cases validity with
  | none => simp [partition_validity]
  | some v =>
    simp only [partition_validity, List.partition_eq_filter_filter]
    simpa [Function.comp] using
      List.filter_append_perm (fun i => v.getD i false) (List.range n)

lemma validBit_of_mem_valid {validity : Option (List Bool)} {n i : Nat}
    (h : i ∈ (partition_validity validity n).1) : validBit validity i = true := by
  cases validity with
  | none => rfl
  | some v =>
    simp only [partition_validity, List.partition_eq_filter_filter,
      List.mem_filter] at h
    simpa [validBit] using h.2

lemma validBit_of_mem_null {validity : Option (List Bool)} {n i : Nat}
    (h : i ∈ (partition_validity validity n).2) : validBit validity i = false := by
  cases validity with
  | none => simp [partition_validity] at h
  | some v =>
    simp only [partition_validity, List.partition_eq_filter_filter,
      List.mem_filter, Function.comp] at h
    simpa [validBit] using h.2

lemma null_partition_sorted (validity : Option (List Bool)) (n : Nat) :
    List.Sorted (fun a b => a < b) ((partition_validity validity n).2) := by
  cases validity with
  | none => simp [partition_validity]
  | some v =>
    simp only [partition_validity, List.partition_eq_filter_filter]
    exact (List.sorted_lt_range n).filter _

lemma indicesSortedBy_eq (cmp : Nat → Nat → Ordering) (o : SortOptions)
    (valid nullIdx : List Nat) (limit : Option Nat) :
    ∃ sorted : List Nat, sorted.Perm valid ∧
      indicesSortedBy cmp o valid nullIdx limit =
        (if o.nulls_first then nullIdx ++ sorted else sorted ++ nullIdx).take
          (limit.getD
            (if o.nulls_first then nullIdx ++ sorted else sorted ++ nullIdx).length) := by
  cases hd : o.descending with
  | false =>
    exact ⟨valid.mergeSort (fun a b => (cmp a b).isLE),
      List.mergeSort_perm _ _, by simp [indicesSortedBy, hd]⟩
  | true =>
    exact ⟨valid.mergeSort (fun a b => (cmp a b).swap.isLE),
      List.mergeSort_perm _ _, by simp [indicesSortedBy, hd]⟩

lemma sort_list_eq (values : List (List Int)) (value_indices null_indices : List Nat)
    (o : SortOptions) (limit : Option Nat) :
    ∃ idxs : List Nat, idxs.Perm value_indices ∧
      sort_list values value_indices null_indices o limit =
        (if o.nulls_first then null_indices ++ idxs else idxs ++ null_indices).take
          (limit.getD
            (if o.nulls_first then null_indices ++ idxs
             else idxs ++ null_indices).length) := by
  have hmap : ∀ le : (Nat × List Int) → (Nat × List Int) → Bool,
      (((value_indices.map (fun i => (i, values.getD i []))).mergeSort le).map
        (fun t => t.1)).Perm value_indices := by
    intro le
    refine ((List.mergeSort_perm _ _).map _).trans ?_
    rw [List.map_map]
    simp [Function.comp_def]
  cases hd : o.descending with
  | false =>
    exact ⟨_, hmap (fun x y => (cmp_array x.2 y.2).isLE), by simp [sort_list, hd]⟩
  | true =>
    exact ⟨_, hmap (fun x y => (cmp_array x.2 y.2).swap.isLE),
      by simp [sort_list, hd]⟩

lemma merged_perm {sorted valid : List Nat} (nullIdx : List Nat)
    (h : sorted.Perm valid) (nf : Bool) :
    (if nf then nullIdx ++ sorted else sorted ++ nullIdx).Perm (valid ++ nullIdx) := by
  cases nf with
  | false => simpa using h.append_right nullIdx
  | true => simpa using (h.append_left nullIdx).trans List.perm_append_comm

lemma block_take (P : Nat → Bool) (nullIdx sorted : List Nat) (nf : Bool) (k : Nat)
    (hn : ∀ i ∈ nullIdx, P i = false) (hs : ∀ i ∈ sorted, P i = true) :
    ∃ a b, (if nf then nullIdx ++ sorted else sorted ++ nullIdx).take k = a ++ b ∧
      (∀ i ∈ a, P i = !nf) ∧ (∀ i ∈ b, P i = nf) := by
  cases nf with
  | true =>
    refine ⟨nullIdx.take k, sorted.take (k - nullIdx.length), ?_, ?_, ?_⟩
    · simp [List.take_append_eq_append_take]
    · intro i hi
      simpa using hn i ((List.take_sublist _ _).subset hi)
    · intro i hi
      simpa using hs i ((List.take_sublist _ _).subset hi)
  | false =>
    refine ⟨sorted.take k, nullIdx.take (k - sorted.length), ?_, ?_, ?_⟩
    · simp [List.take_append_eq_append_take]
    · intro i hi
      simpa using hs i ((List.take_sublist _ _).subset hi)
    · intro i hi
      simpa using hn i ((List.take_sublist _ _).subset hi)

lemma sort_generic_perm (cmp : Nat → Nat → Ordering)
    (validity : Option (List Bool)) (len : Nat) (o : SortOptions) :
    (sort_to_indices_generic cmp validity len o none).Perm (List.range len) := by
  obtain ⟨sorted, hp, he⟩ :=
    indicesSortedBy_eq cmp o (partition_validity validity len).1
      (partition_validity validity len).2 none
  rw [sort_to_indices_generic, he]
  simpa using (merged_perm _ hp o.nulls_first).trans
    (partition_append_perm validity len)

lemma sort_list_path_perm (values : List (List Int))
    (validity : Option (List Bool)) (o : SortOptions) :
    (sort_to_indices_list values validity o none).Perm
      (List.range values.length) := by
  obtain ⟨idxs, hp, he⟩ :=
    sort_list_eq values (partition_validity validity values.length).1
      (partition_validity validity values.length).2 o none
  rw [sort_to_indices_list, he]
  simpa using (merged_perm _ hp o.nulls_first).trans
    (partition_append_perm validity values.length)

/-- C2: for every array of a sortable data type and every `SortOptions`,
`sort_to_indices` with no limit returns a permutation of `0..len()`: every
input position appears exactly once.  Stated for the generic scheme every
supported dispatch arm instantiates (first conjunct, quantified over the
per-type position comparator) and for the concrete List/LargeList/
FixedSizeList path through `sort_list` (second conjunct). -/
theorem c2_sort_to_indices_is_permutation :
    (∀ (cmp : Nat → Nat → Ordering) (validity : Option (List Bool)) (len : Nat)
        (o : SortOptions),
      (sort_to_indices_generic cmp validity len o none).Perm (List.range len)) ∧
    (∀ (values : List (List Int)) (validity : Option (List Bool)) (o : SortOptions),
      (sort_to_indices_list values validity o none).Perm
        (List.range values.length)) :=
  ⟨sort_generic_perm, sort_list_path_perm⟩

/-- C3: in the output of `sort_to_indices` the indices pointing at null
positions form one contiguous block, at the front when `nulls_first` is true
(`!nulls_first = false` bits in the prefix) and at the back when it is false;
the options are universally quantified, so `descending` has no effect on
which end the block occupies.  Stated for the generic scheme and for the
concrete list path. -/
theorem c3_null_indices_form_contiguous_block :
    (∀ (cmp : Nat → Nat → Ordering) (validity : Option (List Bool)) (len : Nat)
        (o : SortOptions) (limit : Option Nat),
      ∃ a b, sort_to_indices_generic cmp validity len o limit = a ++ b ∧
        (∀ i ∈ a, validBit validity i = !o.nulls_first) ∧
        (∀ i ∈ b, validBit validity i = o.nulls_first)) ∧
    (∀ (values : List (List Int)) (validity : Option (List Bool))
        (o : SortOptions) (limit : Option Nat),
      ∃ a b, sort_to_indices_list values validity o limit = a ++ b ∧
        (∀ i ∈ a, validBit validity i = !o.nulls_first) ∧
        (∀ i ∈ b, validBit validity i = o.nulls_first)) := by
  constructor
  · intro cmp validity len o limit
    obtain ⟨sorted, hp, he⟩ :=
      indicesSortedBy_eq cmp o (partition_validity validity len).1
        (partition_validity validity len).2 limit
    rw [sort_to_indices_generic, he]
    refine block_take _ _ _ o.nulls_first _ ?_ ?_
    · exact fun i hi => validBit_of_mem_null hi
    · exact fun i hi => validBit_of_mem_valid (hp.subset hi)
  · intro values validity o limit
    obtain ⟨idxs, hp, he⟩ :=
      sort_list_eq values (partition_validity validity values.length).1
        (partition_validity validity values.length).2 o limit
    rw [sort_to_indices_list, he]
    refine block_take _ _ _ o.nulls_first _ ?_ ?_
    · exact fun i hi => validBit_of_mem_null hi
    · exact fun i hi => validBit_of_mem_valid (hp.subset hi)

/-- C9: `sort_to_indices` with `limit = Some k` returns exactly the first
`min(k, len())` indices of the unlimited output — the truncation happens
after the null/valid merge, so it can cut into either partition.  Stated for
the generic scheme and for the concrete list path. -/
theorem c9_limit_is_prefix_of_unlimited :
    (∀ (cmp : Nat → Nat → Ordering) (validity : Option (List Bool)) (len : Nat)
        (o : SortOptions) (k : Nat),
      sort_to_indices_generic cmp validity len o (some k) =
        (sort_to_indices_generic cmp validity len o none).take k ∧
      (sort_to_indices_generic cmp validity len o (some k)).length = min k len) ∧
    (∀ (values : List (List Int)) (validity : Option (List Bool))
        (o : SortOptions) (k : Nat),
      sort_to_indices_list values validity o (some k) =
        (sort_to_indices_list values validity o none).take k ∧
      (sort_to_indices_list values validity o (some k)).length =
        min k values.length) := by
  constructor
  · intro cmp validity len o k
    have htake : sort_to_indices_generic cmp validity len o (some k) =
        (sort_to_indices_generic cmp validity len o none).take k := by
      cases hd : o.descending <;>
        simp [sort_to_indices_generic, indicesSortedBy, hd, List.take_length]
    refine ⟨htake, ?_⟩
    rw [htake, List.length_take,
      (sort_generic_perm cmp validity len o).length_eq, List.length_range]
  · intro values validity o k
    have htake : sort_to_indices_list values validity o (some k) =
        (sort_to_indices_list values validity o none).take k := by
      cases hd : o.descending <;>
        simp [sort_to_indices_list, sort_list, hd, List.take_length]
    refine ⟨htake, ?_⟩
    rw [htake, List.length_take,
      (sort_list_path_perm values validity o).length_eq, List.length_range]

/-- C10: for every array sorted through the list path, every `SortOptions`
and every limit, the null-position indices in the output of
`sort_to_indices` appear in strictly increasing order of original position:
`partition_validity` collects them by an order-preserving filter of
`0..len()` and `sort_list` never reorders the null block. -/
theorem c10_list_path_null_indices_increasing :
    ∀ (values : List (List Int)) (validity : Option (List Bool))
      (o : SortOptions) (limit : Option Nat),
      List.Sorted (fun a b => a < b)
        ((sort_to_indices_list values validity o limit).filter
          (fun i => !(validBit validity i))) := by
  intro values validity o limit
  obtain ⟨idxs, hp, he⟩ :=
    sort_list_eq values (partition_validity validity values.length).1
      (partition_validity validity values.length).2 o limit
  have hnull : ∀ k, ∀ i ∈ ((partition_validity validity values.length).2).take k,
      (!(validBit validity i)) = true := by
    intro k i hi
    simp [validBit_of_mem_null ((List.take_sublist _ _).subset hi)]
  have hvalid : ∀ k, ∀ i ∈ idxs.take k, ¬((!(validBit validity i)) = true) := by
    intro k i hi
    simp [validBit_of_mem_valid (hp.subset ((List.take_sublist _ _).subset hi))]
  have hsorted : ∀ k, List.Sorted (fun a b => a < b)
      (((partition_validity validity values.length).2).take k) := by
    intro k
    exact List.Pairwise.sublist (List.take_sublist _ _)
      (null_partition_sorted validity _)
  rw [sort_to_indices_list, he]
  cases hnf : o.nulls_first with
  | true =>
    simp only [reduceIte]
    rw [List.take_append_eq_append_take, List.filter_append,
      List.filter_eq_self.2 (hnull _), List.filter_eq_nil_iff.2 (hvalid _),
      List.append_nil]
    exact hsorted _
  | false =>
    simp only [Bool.false_eq_true, if_false]
    rw [List.take_append_eq_append_take, List.filter_append,
      List.filter_eq_nil_iff.2 (hvalid _), List.filter_eq_self.2 (hnull _),
      List.nil_append]
    exact hsorted _

lemma swap_of_dual {α : Type} {c : α → α → Ordering}
    (hdual : ∀ x y, c x y = (c y x).swap) (x y : α) :
    (c x y).swap = c y x := by
  rw [hdual x y, Ordering.swap_swap]

lemma total_of_dual {α : Type} {c : α → α → Ordering}
    (hdual : ∀ x y, c x y = (c y x).swap) :
    ∀ x y, ((c x y).isLE || (c y x).isLE) = true := by
  intro x y
  cases h : c x y with
  | gt =>
    have h2 : c y x = Ordering.lt := by
      have hs := swap_of_dual hdual x y
      rw [h] at hs
      exact hs.symm
    simp [h2, Ordering.isLE]
  | lt => simp [Ordering.isLE]
  | eq => simp [Ordering.isLE]

lemma map_null_block {α : Type} [Inhabited α] (a : PrimitiveArrayM α)
    (l : List Nat) (h : ∀ i ∈ l, validBit a.validity i = false) :
    l.map (fun i => if validBit a.validity i then some (valueAt a i) else none) =
      List.replicate l.length (none : Option α) := by
  rw [List.eq_replicate_iff]
  refine ⟨by simp, ?_⟩
  intro b hb
  obtain ⟨i, hi, rfl⟩ := List.mem_map.1 hb
  rw [if_neg (by simp [h i hi])]

lemma map_sorted_valid {α : Type} [Inhabited α] (c : α → α → Ordering)
    (hdual : ∀ x y, c x y = (c y x).swap)
    (htrans : ∀ x y z, (c x y).isLE = true → (c y z).isLE = true →
      (c x z).isLE = true)
    (hanti : ∀ x y, c x y = Ordering.eq → x = y)
    (a : PrimitiveArrayM α) (vIdx : List Nat)
    (hmem : ∀ i ∈ vIdx, validBit a.validity i = true) :
    (vIdx.mergeSort (fun i j => (c (valueAt a i) (valueAt a j)).isLE)).map
        (fun i => if validBit a.validity i then some (valueAt a i) else none) =
      ((vIdx.map (valueAt a)).mergeSort (fun x y => (c x y).isLE)).map some := by
  have htot := total_of_dual hdual
  haveI hA : IsAntisymm (Option α)
      (fun x y => leOpt (fun u v => (c u v).isLE) x y = true) := by
    constructor
    intro x y hxy hyx
    match x, y with
    | none, none => rfl
    | none, some b => exact absurd hyx (by simp [leOpt])
    | some u, none => exact absurd hxy (by simp [leOpt])
    | some u, some v =>
      have h1 : (c u v).isLE = true := by simpa [leOpt] using hxy
      have h2 : (c v u).isLE = true := by simpa [leOpt] using hyx
      have heq : c u v = Ordering.eq := by
        have hs := swap_of_dual hdual u v
        cases h : c u v with
        | lt =>
          rw [h] at hs
          rw [← hs] at h2
          exact absurd h2 (by decide)
        | eq => rfl
        | gt =>
          rw [h] at h1
          exact absurd h1 (by decide)
      rw [hanti _ _ heq]
  have h1 : (vIdx.mergeSort (fun i j => (c (valueAt a i) (valueAt a j)).isLE)).map
      (fun i => if validBit a.validity i then some (valueAt a i) else none) =
      (vIdx.mergeSort (fun i j => (c (valueAt a i) (valueAt a j)).isLE)).map
      (fun i => some (valueAt a i)) := by
    refine List.map_congr_left ?_
    intro i hi
    rw [if_pos (hmem i (List.mem_mergeSort.1 hi))]
  rw [h1]
  refine @List.eq_of_perm_of_sorted (Option α)
    (fun x y => leOpt (fun u v => (c u v).isLE) x y = true) hA _ _ ?_ ?_ ?_
  · refine (((List.mergeSort_perm vIdx _).map _).trans ?_).trans
      (((List.mergeSort_perm (vIdx.map (valueAt a)) _).map some).symm)
    simp [List.map_map, Function.comp_def]
  · refine List.pairwise_map.2 ?_
    refine List.Pairwise.imp ?_
      (List.sorted_mergeSort
        (fun i j k => htrans (valueAt a i) (valueAt a j) (valueAt a k))
        (fun i j => htot (valueAt a i) (valueAt a j)) vIdx)
    intro i j hij
    simpa [leOpt] using hij
  · refine List.pairwise_map.2 ?_
    refine List.Pairwise.imp ?_
      (List.sorted_mergeSort htrans htot (vIdx.map (valueAt a)))
    intro x y hxy
    simpa [leOpt] using hxy

/-- C7: for every primitive array, options and limit (with the value
comparator a total order, as `ord::total_cmp` and the IEEE-754 totalOrder
comparators are), the direct primitive fast path of `sort` returns the same
logical array as `sort_to_indices` followed by the external `take` kernel. -/
theorem c7_sort_equals_take_of_sort_to_indices {α : Type} [Inhabited α]
    (c : α → α → Ordering) (a : PrimitiveArrayM α) (o : SortOptions)
    (limit : Option Nat) (hc : TotalCmp c) :
    take_kernel a (sort_to_indices_primitive c a o limit) =
      sort_primitive_direct c a o limit := by
  obtain ⟨hdual, htrans, hanti⟩ := hc
  have hdual2 : ∀ x y : α, (c x y).swap = ((c y x).swap).swap := by
    intro x y
    rw [Ordering.swap_swap]
    exact swap_of_dual hdual x y
  have htrans2 : ∀ x y z : α, ((c x y).swap).isLE = true →
      ((c y z).swap).isLE = true → ((c x z).swap).isLE = true := by
    intro x y z h1 h2
    rw [swap_of_dual hdual] at h1 h2 ⊢
    exact htrans _ _ _ h2 h1
  have hanti2 : ∀ x y : α, (c x y).swap = Ordering.eq → x = y := by
    intro x y h
    refine hanti x y ?_
    cases hcy : c x y with
    | lt => rw [hcy] at h; exact absurd h (by decide)
    | eq => rfl
    | gt => rw [hcy] at h; exact absurd h (by decide)
  have hmemv : ∀ i ∈ (partition_validity a.validity a.len).1,
      validBit a.validity i = true := fun i hi => validBit_of_mem_valid hi
  have hmemn : ∀ i ∈ (partition_validity a.validity a.len).2,
      validBit a.validity i = false := fun i hi => validBit_of_mem_null hi
  have hnull := map_null_block a (partition_validity a.validity a.len).2 hmemn
  have hvalid1 := map_sorted_valid c hdual htrans hanti a
    (partition_validity a.validity a.len).1 hmemv
  have hvalid2 : (((partition_validity a.validity a.len).1).mergeSort
        (fun i j => ((c (valueAt a i) (valueAt a j)).swap).isLE)).map
        (fun i => if validBit a.validity i then some (valueAt a i) else none) =
      ((((partition_validity a.validity a.len).1).map (valueAt a)).mergeSort
        (fun x y => ((c x y).swap).isLE)).map some :=
    map_sorted_valid (fun x y => (c x y).swap) hdual2 htrans2 hanti2 a
      (partition_validity a.validity a.len).1 hmemv
  simp only [take_kernel, sort_to_indices_primitive, sort_to_indices_generic,
    indicesSortedBy, sort_primitive_direct, cmpPositions]
  cases hd : o.descending with
  | false =>
    simp only [reduceIte]
    cases hnf : o.nulls_first with
    | true =>
      simp only [reduceIte]
      rw [List.map_take, List.map_append, hnull, hvalid1]
      congr 1
      simp [List.length_mergeSort]
    | false =>
      simp only [Bool.false_eq_true, if_false]
      rw [List.map_take, List.map_append, hnull, hvalid1]
      congr 1
      simp [List.length_mergeSort]
  | true =>
    simp only [Bool.true_eq_false, if_false]
    cases hnf : o.nulls_first with
    | true =>
      simp only [reduceIte]
      rw [List.map_take, List.map_append, hnull, hvalid2]
      congr 1
      simp [List.length_mergeSort]
    | false =>
      simp only [Bool.false_eq_true, if_false]
      rw [List.map_take, List.map_append, hnull, hvalid2]
      congr 1
      simp [List.length_mergeSort]

/-- Witness for C7 at a concrete boolean array `[true, null, true]` sorted
ascending with nulls first, with the `Ord Bool` comparator, whose total-order
hypothesis is discharged by `decide`. -/
theorem c7_witness :
    TotalCmp (fun x y : Bool => compare x y) ∧
    take_kernel (⟨[true, false, true], some [true, false, true]⟩ :
        PrimitiveArrayM Bool)
        (sort_to_indices_primitive (fun x y : Bool => compare x y)
          ⟨[true, false, true], some [true, false, true]⟩ ⟨false, true⟩ none) =
      sort_primitive_direct (fun x y : Bool => compare x y)
        ⟨[true, false, true], some [true, false, true]⟩ ⟨false, true⟩ none :=
  ⟨by unfold TotalCmp; decide,
    c7_sort_equals_take_of_sort_to_indices (fun x y : Bool => compare x y)
      ⟨[true, false, true], some [true, false, true]⟩ ⟨false, true⟩ none
      (by unfold TotalCmp; decide)⟩

/-- C6: the claim that `MutableBitmap::get` panics exactly on `index >=
len()` cannot hold of the code: `get` forwards only the backing byte buffer
to the bit accessor (bitmap/mutable.rs line 139), so no reader of that
buffer can both return the stored bit below the logical length and panic at
or past it — the same call `g [0] 5` would have to return `some` for the
builder of length 6 and `none` for the builder of length 3 over the same
single zero byte. -/
theorem c6_get_cannot_check_logical_length :
    ∀ g : List Nat → Nat → Option Bool,
      ¬ ReadsStoredBits g ∨ ¬ ErrsAtOrPastLength g := by
  intro g
  by_cases h : ReadsStoredBits g
  · right
    intro hB
    have h1 := h ⟨[0], 6⟩ (by norm_num) 5 (by norm_num)
    have h2 := hB ⟨[0], 3⟩ (by norm_num) 5 (by norm_num)
    rw [h2] at h1
    exact Option.noConfusion h1
  · left
    exact h

lemma null_count_eq_count_false (mb : MutableBitmapM) :
    mb.null_count = mb.bits.count false := by
  unfold MutableBitmapM.null_count MutableBitmapM.bits
  rw [List.count_eq_countP, List.countP_map]
  refine List.countP_congr ?_
  intro i _
  cases h : mb.bitAt i <;> simp [Function.comp_def, h]

/-- C8: converting a `MutableBitmap` into `Option<Bitmap>` yields `None`
exactly when it contains zero false bits, and otherwise yields `Some` of a
`Bitmap` with identical length and bit contents. -/
theorem c8_into_option_bitmap :
    ∀ mb : MutableBitmapM,
      (mb.intoOptionBitmap = none ↔ mb.bits.count false = 0) ∧
      (∀ bm : BitmapM, mb.intoOptionBitmap = some bm →
        bm.length = mb.length ∧ bm.bits = mb.bits) := by
  intro mb
  have hc := null_count_eq_count_false mb
  constructor
  · unfold MutableBitmapM.intoOptionBitmap
    by_cases h : 0 < mb.null_count
    · rw [if_pos h]
      simp only [reduceCtorEq, false_iff]
      omega
    · rw [if_neg h]
      simp only [true_iff]
      omega
  · intro bm hbm
    unfold MutableBitmapM.intoOptionBitmap at hbm
    by_cases h : 0 < mb.null_count
    · rw [if_pos h] at hbm
      have hfr : mb.freeze = bm := Option.some.inj hbm
      subst hfr
      refine ⟨rfl, ?_⟩
      unfold BitmapM.bits MutableBitmapM.freeze MutableBitmapM.bits
      refine List.map_congr_left ?_
      intro i _
      simp [BitmapM.get, MutableBitmapM.bitAt]
    · rw [if_neg h] at hbm
      exact Option.noConfusion hbm

/-- Witness for C8's `Some` branch at a concrete builder: one byte `0b010`,
length 3, has two unset bits, so freezing yields the same length and bits. -/
theorem c8_witness :
    ((⟨[2], 0, 3⟩ : BitmapM).length = (⟨[2], 3⟩ : MutableBitmapM).length) ∧
    (⟨[2], 0, 3⟩ : BitmapM).bits = (⟨[2], 3⟩ : MutableBitmapM).bits :=
  (c8_into_option_bitmap ⟨[2], 3⟩).2 ⟨[2], 0, 3⟩ (by rfl)

lemma extend_validity_bits (bm : List Bool) (validity : Option (List Bool))
    (start len : Nat) (uv : Bool) :
    extend_validity bm validity start len uv =
      bm ++ (List.range len).map (fun i => validBit validity (start + i)) := by
  cases validity with
  | some v => rfl
  | none => simp [extend_validity, validBit]

lemma map_getD_range_self {β : Type} (l : List β) (d : β) :
    (List.range l.length).map (fun j => l.getD j d) = l := by
  induction l with
  | nil => rfl
  | cons x xs ih =>
    rw [List.length_cons, List.range_succ_eq_map, List.map_cons, List.map_map]
    simp only [Function.comp_def, List.getD_cons_succ, List.getD_cons_zero]
    rw [ih]

/-- C4: a `GrowablePrimitive` over sources `[A, B]` fed
`extend(0, s0, l0)` then `extend(1, s1, l1)` with in-bounds ranges builds an
array whose values are the concatenation of the two value slices and whose
per-position validity bit equals the corresponding source's bit at the
corresponding position (`true` when that source has no bitmap). -/
theorem c4_growable_extend_preserves_values_and_validity {α : Type}
    (A B : PrimitiveArrayM α) (s0 l0 s1 l1 : Nat) (u : Bool)
    (h0 : s0 + l0 ≤ A.len) (h1 : s1 + l1 ≤ B.len) :
    (((GrowablePrimitiveM.new [A, B] u).extend 0 s0 l0).extend
        1 s1 l1).toArray.values =
      (A.values.drop s0).take l0 ++ (B.values.drop s1).take l1 ∧
    (List.range (l0 + l1)).map
        (fun j => validBit ((((GrowablePrimitiveM.new [A, B] u).extend 0 s0 l0).extend
          1 s1 l1).toArray.validity) j) =
      (List.range l0).map (fun i => validBit A.validity (s0 + i)) ++
        (List.range l1).map (fun i => validBit B.validity (s1 + i)) := by
  have hV : (((GrowablePrimitiveM.new [A, B] u).extend 0 s0 l0).extend
      1 s1 l1).validity =
      (List.range l0).map (fun i => validBit A.validity (s0 + i)) ++
        (List.range l1).map (fun i => validBit B.validity (s1 + i)) := by
    simp [GrowablePrimitiveM.new, GrowablePrimitiveM.extend, extend_validity_bits]
  constructor
  · simp [GrowablePrimitiveM.new, GrowablePrimitiveM.extend,
      GrowablePrimitiveM.toArray]
  · unfold GrowablePrimitiveM.toArray
    rw [hV]
    by_cases h : 0 < ((List.range l0).map (fun i => validBit A.validity (s0 + i)) ++
        (List.range l1).map (fun i => validBit B.validity (s1 + i))).count false
    · rw [if_pos h]
      have hlen : ((List.range l0).map (fun i => validBit A.validity (s0 + i)) ++
          (List.range l1).map (fun i => validBit B.validity (s1 + i))).length =
          l0 + l1 := by simp
      calc (List.range (l0 + l1)).map
            (fun j => validBit (some ((List.range l0).map
              (fun i => validBit A.validity (s0 + i)) ++
              (List.range l1).map (fun i => validBit B.validity (s1 + i)))) j)
          = (List.range ((List.range l0).map (fun i => validBit A.validity (s0 + i)) ++
              (List.range l1).map (fun i => validBit B.validity (s1 + i))).length).map
            (fun j => ((List.range l0).map (fun i => validBit A.validity (s0 + i)) ++
              (List.range l1).map (fun i => validBit B.validity (s1 + i))).getD j false) := by
            rw [hlen]
            exact List.map_congr_left fun j _ => rfl
        _ = _ := map_getD_range_self _ _
    · rw [if_neg h]
      have hall : ∀ b ∈ (List.range l0).map (fun i => validBit A.validity (s0 + i)) ++
          (List.range l1).map (fun i => validBit B.validity (s1 + i)), b = true := by
        intro b hb
        have hz : ((List.range l0).map (fun i => validBit A.validity (s0 + i)) ++
            (List.range l1).map (fun i => validBit B.validity (s1 + i))).count false = 0 := by
          omega
        rw [List.count_eq_zero] at hz
        cases b with
        | true => rfl
        | false => exact absurd hb hz
      have hrep : (List.range l0).map (fun i => validBit A.validity (s0 + i)) ++
          (List.range l1).map (fun i => validBit B.validity (s1 + i)) =
          List.replicate (l0 + l1) true := by
        rw [List.eq_replicate_iff]
        exact ⟨by simp, hall⟩
      rw [hrep]
      simp [validBit]

/-- Witness for C4 at concrete sources `A = [5] with validity [false]` and
`B = [7] with no bitmap`, each extended over its full range. -/
theorem c4_witness :
    (((GrowablePrimitiveM.new
        [(⟨[(5 : Int)], some [false]⟩ : PrimitiveArrayM Int), ⟨[7], none⟩]
        false).extend 0 0 1).extend 1 0 1).toArray.values =
      (([(5 : Int)].drop 0).take 1) ++ (([(7 : Int)].drop 0).take 1) ∧
    (List.range (1 + 1)).map
        (fun j => validBit ((((GrowablePrimitiveM.new
          [(⟨[(5 : Int)], some [false]⟩ : PrimitiveArrayM Int), ⟨[7], none⟩]
          false).extend 0 0 1).extend 1 0 1).toArray.validity) j) =
      (List.range 1).map (fun i => validBit (some [false]) (0 + i)) ++
        (List.range 1).map (fun i => validBit (none : Option (List Bool)) (0 + i)) :=
  c4_growable_extend_preserves_values_and_validity
    ⟨[(5 : Int)], some [false]⟩ ⟨[7], none⟩ 0 1 0 1 false
    (by decide) (by decide)

/-- C5 counterexample: a source with a present, all-true validity bitmap and
`use_validity = false` — the source has a non-absent bitmap, yet the builder
does not promote (`GrowablePrimitive::new` tests `null_count() > 0`, not
bitmap presence). -/
theorem c5_counterexample_all_true_bitmap :
    ((⟨[(1 : Int)], some [true]⟩ : PrimitiveArrayM Int).validity ≠ none) ∧
    (GrowablePrimitiveM.new [(⟨[(1 : Int)], some [true]⟩ : PrimitiveArrayM Int)]
        false).use_validity = false := by
  exact ⟨by simp, rfl⟩

/-- C5 as amended: the builder promotes itself to tracking validity exactly
when `use_validity` was requested or some source array has `null_count() >
0`, i.e. a validity bitmap with at least one unset bit; a present all-true
bitmap does not trigger promotion (and carries no null information to
drop). -/
theorem c5_promotion_exactly_on_null_count {α : Type}
    (arrays : List (PrimitiveArrayM α)) (u : Bool) :
    (GrowablePrimitiveM.new arrays u).use_validity =
      (u || arrays.any (fun a => decide (0 < a.null_count))) := by
  cases u with
  | true => rfl
  | false =>
    have hdef : (GrowablePrimitiveM.new arrays false).use_validity =
        (if arrays.any (fun a => decide (0 < a.null_count)) then true
         else false) := rfl
    rw [hdef]
    cases h : arrays.any (fun a => decide (0 < a.null_count)) <;> simp

end Arrow2
